import Mathlib

/-!
Verification of the movie-sentiment-analyzer backend
(`src/backend/model.py` and `src/backend/app.py`).

Text is modelled as `List Char` (Python `str`; the embedding covers
the ASCII phenomena the code manipulates, plus the non-ASCII
characters that entity decoding can emit).  Python regular-expression passes are
embedded as recursive functions with exactly the scanning semantics of
`re.sub` (leftmost match, continue after the match, `.` does not match
a newline, `\S+` is greedy).  The external classifier and vectorizer
(the pickled model bundle) are modelled as an explicit environment of
fallible functions; Python exceptions become `Except` values.  Python
floats are modelled as exact rationals.
-/

open List

/-- The ASCII whitespace characters recognised by Python's `str.split`,
`str.strip` and `\S` (restricted to ASCII). -/
def isSpace (c : Char) : Bool :=
  c = ' ' || c = '\t' || c = '\n' || c = '\r' || c = '\x0b' || c = '\x0c'

/-- Decimal digit value of an ASCII digit character. -/
def digitVal (c : Char) : ℕ := c.toNat - 48

/-- Hexadecimal digit test, the charref class `[0-9a-fA-F]` of Python's
`html.unescape` pattern. -/
def hexDigit (c : Char) : Bool :=
  Char.isDigit c || ('a' ≤ c && c ≤ 'f') || ('A' ≤ c && c ≤ 'F')

/-- Hexadecimal digit value. -/
def hexVal (c : Char) : ℕ :=
  if Char.isDigit c then c.toNat - 48
  else if 'a' ≤ c && c ≤ 'f' then c.toNat - 87
  else c.toNat - 55

/-- Numeric value of a digit string in the given base (Python's `int`). -/
def foldDigits (base : ℕ) (f : Char → ℕ) (ds : List Char) : ℕ :=
  ds.foldl (fun acc d => acc * base + f d) 0

/-- The Windows-1252 remapping that Python's `html` module applies to
the numeric character references 128–159 (its `_invalid_charrefs`
table). -/
def cp1252 (n : ℕ) : Char :=
  if n = 128 then '€' else if n = 129 then '\u0081'
  else if n = 130 then '‚' else if n = 131 then 'ƒ'
  else if n = 132 then '„' else if n = 133 then '…'
  else if n = 134 then '†' else if n = 135 then '‡'
  else if n = 136 then 'ˆ' else if n = 137 then '‰'
  else if n = 138 then 'Š' else if n = 139 then '‹'
  else if n = 140 then 'Œ' else if n = 141 then '\u008D'
  else if n = 142 then 'Ž' else if n = 143 then '\u008F'
  else if n = 144 then '\u0090' else if n = 145 then '‘'
  else if n = 146 then '’' else if n = 147 then '“'
  else if n = 148 then '”' else if n = 149 then '•'
  else if n = 150 then '–' else if n = 151 then '—'
  else if n = 152 then '˜' else if n = 153 then '™'
  else if n = 154 then 'š' else if n = 155 then '›'
  else if n = 156 then 'œ' else if n = 157 then '\u009D'
  else if n = 158 then 'ž' else 'Ÿ'

/-- The code points suppressed by Python's `html` module when decoding
numeric character references (its `_invalid_codepoints` set): C0/C1
controls other than tab, newline, form feed and carriage return, and
the Unicode noncharacters. -/
def invalidCodepoint (n : ℕ) : Bool :=
  (1 ≤ n && n ≤ 8) || n = 11 || (14 ≤ n && n ≤ 31) || (127 ≤ n && n ≤ 159)
    || (64976 ≤ n && n ≤ 65007) || n % 65536 = 65534 || n % 65536 = 65535

/-- Decode one numeric character reference value exactly as Python's
`html._replace_charref` does: `0`, `13` and `128`–`159` go through the
`_invalid_charrefs` remapping, surrogates and values above `0x10FFFF`
become U+FFFD, the `_invalid_codepoints` are dropped, and any other
value is `chr(num)`. -/
def decodeNumeric (n : ℕ) : List Char :=
  if n = 0 then ['�']
  else if n = 13 then ['\r']
  else if 128 ≤ n ∧ n ≤ 159 then [cp1252 n]
  else if (55296 ≤ n ∧ n ≤ 57343) ∨ 1114111 < n then ['�']
  else if invalidCodepoint n then []
  else [Char.ofNat n]

/-- One if a terminating semicolon follows (the charref pattern's
optional `;`), else zero. -/
def semiLen (l : List Char) : ℕ :=
  if [';'].isPrefixOf l then 1 else 0

/-- Match a numeric character reference (`#` then decimal digits, or
`#x`/`#X` then hexadecimal digits, then an optional semicolon) at the
front of `l`, the text following an `&`; return the decoded characters
and the number of characters of `l` consumed.  Models the numeric
alternatives of the pattern used by Python's `html.unescape`. -/
def findNumeric (l : List Char) : Option (List Char × ℕ) :=
  if ['#', 'x'].isPrefixOf l || ['#', 'X'].isPrefixOf l then
    if (l.drop 2).takeWhile hexDigit = [] then none
    else some (decodeNumeric (foldDigits 16 hexVal ((l.drop 2).takeWhile hexDigit)),
      2 + ((l.drop 2).takeWhile hexDigit).length
        + semiLen (l.drop (2 + ((l.drop 2).takeWhile hexDigit).length)))
  else if ['#'].isPrefixOf l then
    if (l.drop 1).takeWhile Char.isDigit = [] then none
    else some (decodeNumeric (foldDigits 10 digitVal ((l.drop 1).takeWhile Char.isDigit)),
      1 + ((l.drop 1).takeWhile Char.isDigit).length
        + semiLen (l.drop (1 + ((l.drop 1).takeWhile Char.isDigit).length)))
  else none

/-- Match a named character reference at the front of `l`, following
Python's longest-match lookup (the exact name with semicolon first,
then the semicolon-less legacy form), restricted to a representative
subset of the HTML5 named-entity table; names outside the subset are
left undecoded.  Returns the decoded characters and the number of
characters of `l` consumed. -/
def findNamed (l : List Char) : Option (List Char × ℕ) :=
  if ['a', 'm', 'p', ';'].isPrefixOf l then some (['&'], 4)
  else if ['a', 'm', 'p'].isPrefixOf l then some (['&'], 3)
  else if ['a', 'p', 'o', 's', ';'].isPrefixOf l then some (['\u0027'], 5)
  else if ['l', 't', ';'].isPrefixOf l then some (['<'], 3)
  else if ['l', 't'].isPrefixOf l then some (['<'], 2)
  else if ['g', 't', ';'].isPrefixOf l then some (['>'], 3)
  else if ['g', 't'].isPrefixOf l then some (['>'], 2)
  else if ['q', 'u', 'o', 't', ';'].isPrefixOf l then some (['\x22'], 5)
  else if ['q', 'u', 'o', 't'].isPrefixOf l then some (['\x22'], 4)
  else if ['N', 'e', 'w', 'L', 'i', 'n', 'e', ';'].isPrefixOf l then some (['\n'], 8)
  else if ['n', 'b', 's', 'p', ';'].isPrefixOf l then some (['\u00A0'], 5)
  else if ['n', 'b', 's', 'p'].isPrefixOf l then some (['\u00A0'], 4)
  else none

/-- Look for a character reference at the front of `l` (the text after
an ampersand): the numeric alternatives take precedence over the named
one, mirroring the alternation in the pattern used by Python's
`html.unescape` together with `_replace_charref`. -/
def findEntity (l : List Char) : Option (List Char × ℕ) :=
  match findNumeric l with
  | some dr => some dr
  | none => findNamed l

/-- Models `html.unescape(text)`: at each `&`, a recognised character
reference is replaced by its decoded characters and scanning resumes
after the consumed reference; an unrecognised `&` is kept literally. -/
def unescape : List Char → List Char
  | [] => []
  | c :: rest =>
    if c = '&' then
      match findEntity rest with
      | some dr => dr.1 ++ unescape (rest.drop dr.2)
      | none => c :: unescape rest
    else c :: unescape rest
termination_by l => l.length
decreasing_by
  · simp only [List.length_cons, List.length_drop]
    omega
  · simp
  · simp

/-- Scan for the first `'>'`; fail if the end of the text or a newline
comes first (Python's `.` in `<.*?>` does not match a newline, and
`.*?` takes the nearest closing `'>'`). -/
def afterGt : List Char → Option (List Char)
  | [] => none
  | c :: rest =>
    if c = '>' then some rest
    else if c = '\n' then none
    else afterGt rest

/-- Models `re.sub` with pattern `<.*?>`: at each `'<'`, if a `'>'` occurs
before the next newline, delete through that `'>'` and continue after
it; otherwise keep the character. -/
def removeTags : List Char → List Char
  | [] => []
  | c :: rest =>
    if c = '<' then
      match hag : afterGt rest with
      | some rest' => removeTags rest'
      | none => c :: removeTags rest
    else c :: removeTags rest
termination_by l => l.length
decreasing_by
  · have hlen : ∀ (l l2 : List Char), afterGt l = some l2 → l2.length < l.length := by
      intro l
      induction l with
      | nil => intro l2 h; simp [afterGt] at h
      | cons c r ih =>
        intro l2 h
        unfold afterGt at h
        split_ifs at h with h1 h2
        · simp only [Option.some.injEq] at h
          subst h
          simp
        · have := ih l2 h
          simp only [List.length_cons]
          omega
    exact Nat.lt_succ_of_lt (hlen rest rest' hag)
  · simp
  · simp

/-- Does `re.sub(r'http\S+|www\S+', '', text)` match at the current
position: the text starts with `http` or `www` followed by at least
one further non-whitespace character. -/
def urlAt (l : List Char) : Bool :=
  (['h', 't', 't', 'p'].isPrefixOf l && !isSpace ((l.drop 4).headD ' '))
    || (['w', 'w', 'w'].isPrefixOf l && !isSpace ((l.drop 3).headD ' '))

/-- Models `re.sub` with pattern `http\S+|www\S+`: scanning left to right, a
match consumes the whole maximal non-whitespace run from the match
position (the `\S+` is greedy), and scanning resumes after it. -/
def removeUrls : List Char → List Char
  | [] => []
  | c :: rest =>
    if hu : urlAt (c :: rest) then
      removeUrls ((c :: rest).dropWhile (fun x => !isSpace x))
    else c :: removeUrls rest
termination_by l => l.length
decreasing_by
  · have hns : isSpace c = false := by
      unfold urlAt at hu
      rcases Bool.or_eq_true_iff.mp hu with h1 | h1 <;>
      · have hp := (Bool.and_eq_true_iff.mp h1).1
        rw [ List.isPrefixOf_iff_prefix] at hp
        rw [List.cons_prefix_cons] at hp
        rw [← hp.1]
        rfl
    rw [List.dropWhile_cons_of_pos (by simp [hns])]
    exact Nat.lt_succ_of_le (List.dropWhile_sublist _).length_le
  · simp

/-- Python `str.lower` restricted to ASCII: shift each of `A`..`Z`
(code points 65-90) down into `a`..`z` and keep every other
character. -/
def toLowerChar (c : Char) : Char :=
  if 65 ≤ c.toNat ∧ c.toNat ≤ 90 then Char.ofNat (c.toNat + 32) else c

/-- Python `text.split()`: the maximal non-whitespace runs of the text,
in order. -/
def splitWs : List Char → List (List Char)
  | [] => []
  | c :: rest =>
    if isSpace c then splitWs rest
    else (c :: rest.takeWhile (fun x => !isSpace x))
      :: splitWs (rest.dropWhile (fun x => !isSpace x))
termination_by l => l.length
decreasing_by
  · simp
  · exact Nat.lt_succ_of_le (List.dropWhile_sublist _).length_le

/-- Python `' '.join(tokens)`. -/
def joinWs : List (List Char) → List Char
  | [] => []
  | [t] => t
  | t :: ts => t ++ ' ' :: joinWs ts

/-- Models `' '.join(text.split())`: collapse whitespace runs to single
spaces and trim. -/
def collapseWs (l : List Char) : List Char :=
  joinWs (splitWs l)

/-- Models `SentimentAnalyzer.preprocess_text` (src/backend/model.py lines
33-45): decode HTML entities, strip `<.*?>` tags, strip
`http\S+|www\S+` matches, lowercase, collapse whitespace. -/
def preprocess_text (text : List Char) : List Char :=
  collapseWs (List.map toLowerChar (removeUrls (removeTags (unescape text))))

/-- Does a token begin with `http` or `www`? -/
def startsWithHttpWww (t : List Char) : Bool :=
  ['h', 't', 't', 'p'].isPrefixOf t || ['w', 'w', 'w'].isPrefixOf t

/-- Modelled from the spec (claim C1 step 3): remove every
whitespace-delimited token that *begins with* `http` or `www` — the
whole token, leaving all other tokens intact.  This is the spec's
wording for the URL-removal step, to be compared with the source's
`removeUrls`. -/
def specRemoveUrlTokens : List Char → List Char
  | [] => []
  | c :: rest =>
    if isSpace c then c :: specRemoveUrlTokens rest
    else
      (if startsWithHttpWww (c :: rest.takeWhile (fun x => !isSpace x)) then []
       else c :: rest.takeWhile (fun x => !isSpace x))
        ++ specRemoveUrlTokens (rest.dropWhile (fun x => !isSpace x))
termination_by l => l.length
decreasing_by
  · simp
  · exact Nat.lt_succ_of_le (List.dropWhile_sublist _).length_le

/-- The five-step composition exactly as the spec words it (claim C1),
with the URL step taken from the spec's words rather than from the
code. -/
def specNormalize (text : List Char) : List Char :=
  collapseWs (List.map toLowerChar (specRemoveUrlTokens (removeTags (unescape text))))

/-- A Python value passed as review text: either a `str` or some
non-string value (whose further identity the code never inspects —
`isinstance(review_text, str)` is false either way). -/
inductive PyInput
  | pyStr (s : List Char)
  | pyOther
deriving DecidableEq

/-- A successful prediction dictionary of `SentimentAnalyzer.predict`
(src/backend/model.py lines 80-85). -/
structure Outcome where
  sentiment : String
  confidence : ℚ
  prediction_time_ms : ℚ
  label : ℤ
deriving DecidableEq

/-- The dictionary returned by `SentimentAnalyzer.predict`: either a
success dictionary or a dictionary with a single `error` key. -/
inductive PredictResult
  | ok (o : Outcome)
  | err (error : String)
deriving DecidableEq

/-- The externally loaded model bundle: the TF-IDF vectorizer
`transform`, the classifier's `predict` and `predict_proba`, and the
wall-clock scoring time.  Each call either returns a value or raises
(an `Except.error` carrying the exception's message). -/
structure ModelEnv where
  transform : List Char → Except String (List ℚ)
  cls_predict : List ℚ → Except String (List ℤ)
  cls_proba : List ℚ → Except String (List (List ℚ))
  elapsed_ms : ℚ

/-- The message `Invalid input: review text must be a non-empty string`. -/
def invalidInputMsg : String :=
  "Invalid input: review text must be a non-empty string"

/-- The `f'Prediction failed: {str(e)}'` error message. -/
def failMsg (e : String) : String :=
  "Prediction failed: " ++ e

/-- Message of the `IndexError` raised by `[0]` on an empty array. -/
def indexErrorMsg : String :=
  "index 0 is out of bounds"

/-- Message of the `ValueError` raised by `max()` on an empty sequence. -/
def maxEmptyMsg : String :=
  "max() arg is an empty sequence"

/-- Python `round(x, 2)` modelled on exact rationals (rounding half
up rather than the float banker's rounding). -/
def round2 (x : ℚ) : ℚ :=
  ((Rat.floor (x * 100 + 1 / 2) : ℤ) : ℚ) / 100

/-- Python `max(list)` (junk value on `[]`; the empty case raises and
is handled separately by the caller). -/
def pyMax : List ℚ → ℚ
  | [] => 0
  | p :: ps => ps.foldl max p

/-- The `try:` body of `SentimentAnalyzer.predict` (src/backend/model.py
lines 63-90) applied to the already-cleaned text: vectorize, get the
class prediction and the probability row, and format the result; every
exception from a stage becomes an `'error'` dictionary with message
`'Prediction failed: ...'`. -/
def runPrediction (env : ModelEnv) (clean_text : List Char) : PredictResult :=
  match env.transform clean_text with
  | .error e => .err (failMsg e)
  | .ok tfidf_features =>
    match env.cls_predict tfidf_features with
    | .error e => .err (failMsg e)
    | .ok preds =>
      match preds with
      | [] => .err (failMsg indexErrorMsg)
      | prediction :: _ =>
        match env.cls_proba tfidf_features with
        | .error e => .err (failMsg e)
        | .ok rows =>
          match rows with
          | [] => .err (failMsg indexErrorMsg)
          | probability :: _ =>
            match probability with
            | [] => .err (failMsg maxEmptyMsg)
            | p :: ps =>
              PredictResult.ok
                { sentiment := if prediction = 1 then ("Positive") else ("Negative")
                  confidence := round2 (ps.foldl max p * 100)
                  prediction_time_ms := round2 env.elapsed_ms
                  label := prediction }

/-- Models `SentimentAnalyzer.predict` (src/backend/model.py lines 47-90):
reject empty strings and non-strings, then preprocess and run the
model pipeline with all exceptions caught. -/
def predict (env : ModelEnv) : PyInput → PredictResult
  | .pyOther => .err invalidInputMsg
  | .pyStr s =>
    if s = [] then .err invalidInputMsg
    else runPrediction env (preprocess_text s)

/-- The `review` field of a `/api/predict` request body: absent, a
non-string JSON value, or a string. -/
inductive ReviewField
  | missing
  | notStr
  | str (s : List Char)
deriving DecidableEq

/-- A `/api/predict` request: whether the body parses as JSON, and the
`review` field. -/
structure PredictReq where
  is_json : Bool
  review : ReviewField
deriving DecidableEq

/-- A `/api/predict` response body. -/
inductive RespBody
  | outcome (o : Outcome) (review_length : ℕ) (request_id : ℕ)
  | predictErr (error : String)
  | fieldErr (error : String) (message : String)
  | lengthErr (error : String) (message : String) (current_length : ℕ)
deriving DecidableEq

/-- The interpolated message `Review must be less than ... characters`. -/
def tooLongMsg (maxLen : ℕ) : String :=
  "Review must be less than " ++ toString maxLen ++ " characters"

/-- The `predict_sentiment` handler for `POST /api/predict`
(src/backend/app.py lines 78-165).  Arguments: the loaded analyzer (or
`none` if loading failed), `MAX_REVIEW_LENGTH`, the current global
`request_count`, and the request.  Returns the new `request_count`,
the number of calls made to `analyzer.predict`, the HTTP status, and
the response body. -/
def predict_sentiment (analyzer : Option ModelEnv) (maxLen : ℕ)
    (request_count : ℕ) (req : PredictReq) : ℕ × ℕ × ℕ × RespBody :=
  let request_count := request_count + 1
  match analyzer with
  | none =>
    (request_count, 0, 503,
      .fieldErr ("Model not available") ("Sentiment analysis model failed to load"))
  | some env =>
    if !req.is_json then
      (request_count, 0, 400,
        .fieldErr ("Invalid request format")
          ("Request must be JSON with Content-Type: application/json"))
    else
      match req.review with
      | .missing =>
        (request_count, 0, 400,
          .fieldErr ("Missing required field")
            ("Request body must contain \x22review\x22 field"))
      | .notStr =>
        (request_count, 0, 400,
          .fieldErr ("Invalid review format") ("Review must be a string"))
      | .str s =>
        if s.all isSpace then
          (request_count, 0, 400,
            .fieldErr ("Empty review") ("Review text cannot be empty"))
        else if maxLen < s.length then
          (request_count, 0, 400,
            .lengthErr ("Review too long") (tooLongMsg maxLen) s.length)
        else
          match predict env (.pyStr s) with
          | .err m => (request_count, 1, 500, .predictErr m)
          | .ok o => (request_count, 1, 200, .outcome o s.length request_count)

/-- The `reviews` field of a `/api/predict/batch` request body. -/
inductive BatchField
  | missing
  | notList
  | items (l : List PyInput)
deriving DecidableEq

/-- A `/api/predict/batch` request. -/
structure BatchReq where
  is_json : Bool
  reviews : BatchField
deriving DecidableEq

/-- One element of a batch response's `results` list: a prediction
dictionary with its `index`, or a dictionary with `index` and
`error` keys. -/
inductive BatchEntry
  | ok (o : Outcome) (index : ℕ)
  | err (index : ℕ) (error : String)
deriving DecidableEq

/-- The 200 body of `/api/predict/batch`. -/
structure BatchBody where
  total_reviews : ℕ
  successful_predictions : ℕ
  results : List BatchEntry
deriving DecidableEq

/-- A `/api/predict/batch` response: the 200 body or an error body. -/
inductive BatchResp
  | ok (b : BatchBody)
  | err (error : String)
deriving DecidableEq

/-- The message `Invalid or empty review`. -/
def invalidItemMsg : String :=
  "Invalid or empty review"

/-- Whether a batch entry carries an `error` key (the
`'error' not in r` test of src/backend/app.py line 225). -/
def entryIsOk : BatchEntry → Bool
  | .ok _ _ => true
  | .err _ _ => false

/-- The per-item loop of `predict_batch` (src/backend/app.py lines
202-221): each item increments `request_count`; non-strings and
blank strings get an indexed error entry; other items are predicted.
Returns the new count, the number of `analyzer.predict` calls, and
the results in input order. -/
def batchLoop (env : ModelEnv) : List PyInput → ℕ → ℕ → ℕ × ℕ × List BatchEntry
  | [], _, request_count => (request_count, 0, [])
  | item :: rest, i, request_count =>
    let request_count := request_count + 1
    match item with
    | .pyOther =>
      let r := batchLoop env rest (i + 1) request_count
      (r.1, r.2.1, .err i invalidItemMsg :: r.2.2)
    | .pyStr s =>
      if s.all isSpace then
        let r := batchLoop env rest (i + 1) request_count
        (r.1, r.2.1, .err i invalidItemMsg :: r.2.2)
      else
        match predict env (.pyStr s) with
        | .ok o =>
          let r := batchLoop env rest (i + 1) request_count
          (r.1, r.2.1 + 1, .ok o i :: r.2.2)
        | .err m =>
          let r := batchLoop env rest (i + 1) request_count
          (r.1, r.2.1 + 1, .err i m :: r.2.2)

/-- The `predict_batch` handler for `POST /api/predict/batch`
(src/backend/app.py lines 167-227).  Returns the new `request_count`,
the number of `analyzer.predict` calls, the HTTP status, and the
response. -/
def predict_batch (analyzer : Option ModelEnv) (request_count : ℕ)
    (req : BatchReq) : ℕ × ℕ × ℕ × BatchResp :=
  match analyzer with
  | none => (request_count, 0, 503, .err ("Model not available"))
  | some env =>
    if !req.is_json then
      (request_count, 0, 400, .err ("Invalid request format"))
    else
      match req.reviews with
      | .missing =>
        (request_count, 0, 400, .err ("Missing required field \x22reviews\x22"))
      | .notList =>
        (request_count, 0, 400, .err ("Reviews must be a list"))
      | .items reviews =>
        if reviews.length = 0 then
          (request_count, 0, 400, .err ("Reviews list cannot be empty"))
        else if 100 < reviews.length then
          (request_count, 0, 400, .err ("Maximum 100 reviews per batch request"))
        else
          let r := batchLoop env reviews 0 request_count
          (r.1, r.2.1, 200,
            .ok { total_reviews := reviews.length
                  successful_predictions := (r.2.2.filter entryIsOk).length
                  results := r.2.2 })

/-- The `home` handler for `GET /` (src/backend/app.py lines 31-44):
reads no mutable state; `request_count` is returned unchanged. -/
def home (analyzer : Option ModelEnv) (request_count : ℕ) : ℕ × ℕ × Bool :=
  (request_count, 200, analyzer.isSome)

/-- The `health_check` handler for `GET /api/health` (src/backend/app.py
lines 46-54): reports `model_loaded` and `total_requests`; the counter
is read but never written. -/
def health_check (analyzer : Option ModelEnv) (request_count : ℕ) :
    ℕ × ℕ × Bool × ℕ :=
  (request_count, 200, analyzer.isSome, request_count)

/-- The `get_stats` handler for `GET /api/stats` (src/backend/app.py
lines 56-76): 503 when the model is not loaded, otherwise the counter
is reported; it is never written. -/
def get_stats (analyzer : Option ModelEnv) (request_count : ℕ) :
    ℕ × ℕ × Option ℕ :=
  match analyzer with
  | none => (request_count, 503, none)
  | some _ => (request_count, 200, some request_count)

/-- A model bundle whose vectorizer raises on every input. -/
def envBoom : ModelEnv :=
  { transform := fun _ => .error ("boom")
    cls_predict := fun _ => .ok [1]
    cls_proba := fun _ => .ok [[1]]
    elapsed_ms := 0 }

/-- A model bundle that always classifies as label 1 with probability
row [1]. -/
def envOne : ModelEnv :=
  { transform := fun _ => .ok [1]
    cls_predict := fun _ => .ok [1]
    cls_proba := fun _ => .ok [[1]]
    elapsed_ms := 0 }

/-- The dictionary `envOne` produces for any non-empty review. -/
def outcomeOne : Outcome :=
  { sentiment := "Positive"
    confidence := round2 (1 * 100)
    prediction_time_ms := round2 0
    label := 1 }

/-- The review text of the spec's API round-trip example. -/
def movieReview : List Char :=
  "I loved this movie!".toList

/-- No two consecutive whitespace characters anywhere in the text. -/
def noDoubleWs : List Char → Bool
  | [] => true
  | [_] => true
  | a :: b :: rest => !(isSpace a && isSpace b) && noDoubleWs (b :: rest)

/-- No `'<'` is followed (anywhere later) by a `'>'`. -/
def noLtGt : List Char → Bool
  | [] => true
  | c :: rest =>
    (if c = '<' then !(rest.any (fun x => x = '>')) else true) && noLtGt rest

/-- The witness input for the amended C2: text with HTML tags, URLs, a
named entity and a numeric entity, whose entity-decoded form is
lowercase and newline-free. -/
def c2SampleText : List Char :=
  "see <b>this</b> at http://x.y or www.z &amp; maybe &#104;ttp now".toList

example : preprocess_text ("Hello   <b>World</b>!".toList) = ("hello world!".toList) := by
  simp [preprocess_text, collapseWs, unescape, findEntity, findNumeric, findNamed, semiLen, decodeNumeric, invalidCodepoint, foldDigits, digitVal, hexVal, hexDigit, cp1252, Char.isDigit, removeTags, afterGt,
    removeUrls, urlAt, splitWs, joinWs, toLowerChar, isSpace]

example : preprocess_text (" visit http://x.com now ".toList) = ("visit now".toList) := by
  simp [preprocess_text, collapseWs, unescape, findEntity, findNumeric, findNamed, semiLen, decodeNumeric, invalidCodepoint, foldDigits, digitVal, hexVal, hexDigit, cp1252, Char.isDigit, removeTags, afterGt,
    removeUrls, urlAt, splitWs, joinWs, toLowerChar, isSpace]

example : preprocess_text ("a&amp;b".toList) = ("a&b".toList) := by
  simp [preprocess_text, collapseWs, unescape, findEntity, findNumeric, findNamed, semiLen, decodeNumeric, invalidCodepoint, foldDigits, digitVal, hexVal, hexDigit, cp1252, Char.isDigit, removeTags, afterGt,
    removeUrls, urlAt, splitWs, joinWs, toLowerChar, isSpace]

example : preprocess_text ("ahttpb".toList) = ("a".toList) := by
  simp [preprocess_text, collapseWs, unescape, findEntity, findNumeric, findNamed, semiLen, decodeNumeric, invalidCodepoint, foldDigits, digitVal, hexVal, hexDigit, cp1252, Char.isDigit, removeTags, afterGt,
    removeUrls, urlAt, splitWs, joinWs, toLowerChar, isSpace]

example : specNormalize ("ahttpb".toList) = ("ahttpb".toList) := by
  simp [specNormalize, collapseWs, unescape, findEntity, findNumeric, findNamed, semiLen, decodeNumeric, invalidCodepoint, foldDigits, digitVal, hexVal, hexDigit, cp1252, Char.isDigit, removeTags, afterGt,
    specRemoveUrlTokens, startsWithHttpWww, splitWs, joinWs, toLowerChar, isSpace]

example : preprocess_text ("http".toList) = ("http".toList) := by
  simp [preprocess_text, collapseWs, unescape, findEntity, findNumeric, findNamed, semiLen, decodeNumeric, invalidCodepoint, foldDigits, digitVal, hexVal, hexDigit, cp1252, Char.isDigit, removeTags, afterGt,
    removeUrls, urlAt, splitWs, joinWs, toLowerChar, isSpace]

example : preprocess_text ("<\n> http".toList) = ("< > http".toList) := by
  simp [preprocess_text, collapseWs, unescape, findEntity, findNumeric, findNamed, semiLen, decodeNumeric, invalidCodepoint, foldDigits, digitVal, hexVal, hexDigit, cp1252, Char.isDigit, removeTags, afterGt,
    removeUrls, urlAt, splitWs, joinWs, toLowerChar, isSpace]

example : preprocess_text ("HTTPX".toList) = ("httpx".toList) := by
  simp [preprocess_text, collapseWs, unescape, findEntity, findNumeric, findNamed, semiLen, decodeNumeric, invalidCodepoint, foldDigits, digitVal, hexVal, hexDigit, cp1252, Char.isDigit, removeTags, afterGt,
    removeUrls, urlAt, splitWs, joinWs, toLowerChar, isSpace]

example : preprocess_text ("httpx".toList) = [] := by
  simp [preprocess_text, collapseWs, unescape, findEntity, findNumeric, findNamed, semiLen, decodeNumeric, invalidCodepoint, foldDigits, digitVal, hexVal, hexDigit, cp1252, Char.isDigit, removeTags, afterGt,
    removeUrls, urlAt, splitWs, joinWs, toLowerChar, isSpace]

example : unescape ("&lt".toList) = ("<".toList) := by
  simp [unescape, findEntity, findNumeric, findNamed, semiLen, decodeNumeric, invalidCodepoint, foldDigits, digitVal, hexVal, hexDigit, cp1252, Char.isDigit, isSpace]

example : unescape ("&NewLine;x".toList) = ("\nx".toList) := by
  simp [unescape, findEntity, findNumeric, findNamed, semiLen, decodeNumeric, invalidCodepoint, foldDigits, digitVal, hexVal, hexDigit, cp1252, Char.isDigit, isSpace]

example : unescape ("&#x48;i".toList) = ("Hi".toList) := by
  simp [unescape, findEntity, findNumeric, findNamed, semiLen, decodeNumeric, invalidCodepoint, foldDigits, digitVal, hexVal, hexDigit, cp1252, Char.isDigit, isSpace]

example : preprocess_text ("<&#10;>".toList) = ("< >".toList) := by
  simp [preprocess_text, collapseWs, unescape, findEntity, findNumeric, findNamed, semiLen, decodeNumeric, invalidCodepoint, foldDigits, digitVal, hexVal, hexDigit, cp1252, Char.isDigit, removeTags, afterGt,
    removeUrls, urlAt, splitWs, joinWs, toLowerChar, isSpace]

example : preprocess_text ("&#72;ttpx".toList) = ("httpx".toList) := by
  simp [preprocess_text, collapseWs, unescape, findEntity, findNumeric, findNamed, semiLen, decodeNumeric, invalidCodepoint, foldDigits, digitVal, hexVal, hexDigit, cp1252, Char.isDigit, removeTags, afterGt,
    removeUrls, urlAt, splitWs, joinWs, toLowerChar, isSpace]

theorem urlAt_head {c : Char} {rest : List Char} (h : urlAt (c :: rest) = true) :
    isSpace c = false := by
  unfold urlAt at h
  rcases Bool.or_eq_true_iff.mp h with h1 | h1 <;>
  · have hp := (Bool.and_eq_true_iff.mp h1).1
    rw [ List.isPrefixOf_iff_prefix] at hp
    rw [List.cons_prefix_cons] at hp
    rw [← hp.1]
    rfl

theorem ratFloor_eq_intFloor (q : ℚ) : (Rat.floor q : ℤ) = ⌊q⌋ := by
  rw [Rat.floor_def', Rat.floor_def]

theorem foldl_max_bounds {p : ℚ} {ps : List ℚ} (h0 : 0 ≤ p) (h1 : p ≤ 1)
    (hps : ∀ x ∈ ps, 0 ≤ x ∧ x ≤ 1) :
    0 ≤ ps.foldl max p ∧ ps.foldl max p ≤ 1 := by
  induction ps generalizing p with
  | nil => exact ⟨h0, h1⟩
  | cons q ps ih =>
    simp only [List.foldl_cons]
    have hq := hps q (by simp)
    exact ih (le_trans h0 (le_max_left p q)) (max_le h1 hq.2)
      (fun x hx => hps x (by simp [hx]))

theorem round2_bounds {v : ℚ} (h0 : 0 ≤ v) (h1 : v ≤ 100) :
    0 ≤ round2 v ∧ round2 v ≤ 100 := by
  unfold round2
  rw [ratFloor_eq_intFloor]
  constructor
  · apply div_nonneg _ (by norm_num)
    have : (0 : ℤ) ≤ ⌊v * 100 + 1 / 2⌋ := Int.floor_nonneg.mpr (by linarith)
    exact_mod_cast this
  · rw [div_le_iff₀ (by norm_num : (0:ℚ) < 100)]
    have hle : (⌊v * 100 + 1 / 2⌋ : ℚ) ≤ v * 100 + 1 / 2 := Int.floor_le _
    have hz : ⌊v * 100 + 1 / 2⌋ ≤ 10000 := by
      by_contra hgt
      push_neg at hgt
      have : ((10001 : ℤ) : ℚ) ≤ (⌊v * 100 + 1 / 2⌋ : ℚ) := by exact_mod_cast hgt
      linarith
    have : ((⌊v * 100 + 1 / 2⌋ : ℤ) : ℚ) ≤ ((10000 : ℤ) : ℚ) := by exact_mod_cast hz
    linarith

/-- C1.  The claim states `preprocess_text` equals the composition of
the five spec steps with step 3 removing every *whole
whitespace-delimited token beginning with* `http` or `www`.  On
`"ahttpb"` the code's regex `http\S+|www\S+` removes the match
`httpb` from the middle of the token, leaving `"a"`, while the spec's
step-3 composition leaves the token `"ahttpb"` untouched — so the
claim is false. -/
theorem c1_counterexample :
    preprocess_text ("ahttpb".toList) ≠ specNormalize ("ahttpb".toList) := by
  have h1 : preprocess_text ("ahttpb".toList) = ("a".toList) := by
    simp [preprocess_text, collapseWs, unescape, findEntity, findNumeric, findNamed, semiLen, decodeNumeric, invalidCodepoint, foldDigits, digitVal, hexVal, hexDigit, cp1252, Char.isDigit, removeTags, afterGt,
      removeUrls, urlAt, splitWs, joinWs, toLowerChar, isSpace]
  have h2 : specNormalize ("ahttpb".toList) = ("ahttpb".toList) := by
    simp [specNormalize, collapseWs, unescape, findEntity, findNumeric, findNamed, semiLen, decodeNumeric, invalidCodepoint, foldDigits, digitVal, hexVal, hexDigit, cp1252, Char.isDigit, removeTags, afterGt,
      specRemoveUrlTokens, startsWithHttpWww, splitWs, joinWs, toLowerChar, isSpace]
  rw [h1, h2]
  decide

/-- C1 (amended).  `preprocess_text` is exactly the in-order
composition: decode HTML entities; remove `<`…`>` matches non-greedily
(not across newlines); remove every occurrence of `http`/`www`
followed by at least one non-whitespace character together with the
whole non-whitespace run that follows (possibly only the tail of a
token, and leaving bare `http`/`www` tokens intact); lowercase;
collapse whitespace runs to single spaces and trim. -/
theorem c1_amended_theorem :
    ∀ s : List Char, preprocess_text s =
      collapseWs (List.map toLowerChar (removeUrls (removeTags (unescape s)))) :=
  fun _ => rfl

/-- C3.  The claim asserts idempotence on any text free of HTML
entities/tags, URL-like tokens and extra whitespace.  `"HTTPX"` is
fixed by every cleanup pass (no entities, no tags, no URL-regex match
— the regex is case-sensitive — and no whitespace), yet
`preprocess_text "HTTPX" = "httpx"` and a second application removes
`httpx` entirely, so normalize∘normalize ≠ normalize there. -/
theorem c3_counterexample :
    (unescape ("HTTPX".toList) = "HTTPX".toList
      ∧ removeTags ("HTTPX".toList) = "HTTPX".toList
      ∧ removeUrls ("HTTPX".toList) = "HTTPX".toList
      ∧ collapseWs ("HTTPX".toList) = "HTTPX".toList)
    ∧ preprocess_text (preprocess_text ("HTTPX".toList))
        ≠ preprocess_text ("HTTPX".toList) := by
  constructor
  · refine ⟨?_, ?_, ?_, ?_⟩ <;>
      simp [unescape, findEntity, findNumeric, findNamed, semiLen, decodeNumeric, invalidCodepoint, foldDigits, digitVal, hexVal, hexDigit, cp1252, Char.isDigit, removeTags, afterGt, removeUrls, urlAt,
        collapseWs, splitWs, joinWs, isSpace]
  · have h1 : preprocess_text ("HTTPX".toList) = ("httpx".toList) := by
      simp [preprocess_text, collapseWs, unescape, findEntity, findNumeric, findNamed, semiLen, decodeNumeric, invalidCodepoint, foldDigits, digitVal, hexVal, hexDigit, cp1252, Char.isDigit, removeTags, afterGt,
        removeUrls, urlAt, splitWs, joinWs, toLowerChar, isSpace]
    rw [h1]
    have h2 : preprocess_text ("httpx".toList) = [] := by
      simp [preprocess_text, collapseWs, unescape, findEntity, findNumeric, findNamed, semiLen, decodeNumeric, invalidCodepoint, foldDigits, digitVal, hexVal, hexDigit, cp1252, Char.isDigit, removeTags, afterGt,
        removeUrls, urlAt, splitWs, joinWs, toLowerChar, isSpace]
    rw [h2]
    decide

/-- C3 (amended).  `preprocess_text` is idempotent on every text that
each cleanup pass leaves unchanged *and that is already lowercase*:
if entity decoding, tag stripping, URL-match removal, lowercasing and
whitespace collapsing all fix `x`, then normalizing twice equals
normalizing once (indeed `preprocess_text x = x`). -/
theorem c3_amended_theorem (x : List Char)
    (h1 : unescape x = x) (h2 : removeTags x = x) (h3 : removeUrls x = x)
    (h4 : List.map toLowerChar x = x) (h5 : collapseWs x = x) :
    preprocess_text (preprocess_text x) = preprocess_text x := by
  have hx : preprocess_text x = x := by
    unfold preprocess_text
    rw [h1, h2, h3, h4, h5]
  rw [hx, hx]

theorem c3_amended_witness :
    preprocess_text (preprocess_text ("good movie".toList))
      = preprocess_text ("good movie".toList) := by
  apply c3_amended_theorem <;>
    simp [unescape, findEntity, findNumeric, findNamed, semiLen, decodeNumeric, invalidCodepoint, foldDigits, digitVal, hexVal, hexDigit, cp1252, Char.isDigit, removeTags, afterGt, removeUrls, urlAt,
      collapseWs, splitWs, joinWs, toLowerChar, isSpace]

/-- C4.  For the empty string and for any non-string value,
`SentimentAnalyzer.predict` returns the invalid-input error
dictionary and never a success dictionary, whatever the loaded model
does. -/
theorem c4_theorem :
    ∀ env : ModelEnv,
      predict env (.pyStr []) = .err invalidInputMsg
      ∧ predict env .pyOther = .err invalidInputMsg
      ∧ (∀ o, predict env (.pyStr []) ≠ .ok o)
      ∧ (∀ o, predict env .pyOther ≠ .ok o) := by
  intro env
  refine ⟨rfl, rfl, ?_, ?_⟩ <;> intro o h <;> simp [predict] at h

/-- C5.  `SentimentAnalyzer.predict` on a non-empty string is total:
the result is always one of the two dictionary shapes; an exception
raised by the vectorizer, by the classifier's `predict`, or by
`predict_proba` is converted into the `'Prediction failed: ...'`
error dictionary; and every error dictionary it returns past input
validation carries that descriptive prefix — no exception propagates. -/
theorem c5_theorem (env : ModelEnv) (s : List Char) (h : s ≠ []) :
    ((∃ m, predict env (.pyStr s) = .err m)
        ∨ (∃ o, predict env (.pyStr s) = .ok o))
    ∧ (∀ e, env.transform (preprocess_text s) = .error e →
        predict env (.pyStr s) = .err (failMsg e))
    ∧ (∀ f e, env.transform (preprocess_text s) = .ok f →
        env.cls_predict f = .error e →
        predict env (.pyStr s) = .err (failMsg e))
    ∧ (∀ f z preds e, env.transform (preprocess_text s) = .ok f →
        env.cls_predict f = .ok (z :: preds) →
        env.cls_proba f = .error e →
        predict env (.pyStr s) = .err (failMsg e))
    ∧ (∀ m, predict env (.pyStr s) = .err m → ∃ e, m = failMsg e) := by
  simp only [predict, if_neg h]
  refine ⟨?_, ?_, ?_, ?_, ?_⟩
  · cases hr : runPrediction env (preprocess_text s) with
    | ok o => exact Or.inr ⟨o, rfl⟩
    | err m => exact Or.inl ⟨m, rfl⟩
  · intro e he
    simp only [runPrediction, he]
  · intro f e hf he
    simp only [runPrediction, hf, he]
  · intro f z preds e hf hz he
    simp only [runPrediction, hf, hz, he]
  · intro m hm
    unfold runPrediction at hm
    split at hm
    · exact ⟨_, (PredictResult.err.inj hm).symm⟩
    · split at hm
      · exact ⟨_, (PredictResult.err.inj hm).symm⟩
      · split at hm
        · exact ⟨_, (PredictResult.err.inj hm).symm⟩
        · split at hm
          · exact ⟨_, (PredictResult.err.inj hm).symm⟩
          · split at hm
            · exact ⟨_, (PredictResult.err.inj hm).symm⟩
            · split at hm
              · exact ⟨_, (PredictResult.err.inj hm).symm⟩
              · exact absurd hm (by simp)

theorem c5_witness :
    ("x".toList ≠ [])
      ∧ predict envBoom (.pyStr ("x".toList)) = .err (failMsg ("boom")) :=
  ⟨by decide, (c5_theorem envBoom ("x".toList) (by decide)).2.1 ("boom") rfl⟩

/-- C6.  If the loaded classifier only ever returns class labels in
{0,1} and probabilities in [0,1], then every success dictionary of
`predict` has `label` in {0,1}, `sentiment = "Positive"` exactly when
`label = 1`, `confidence` equal to the maximum probability of the
returned probability row times 100 rounded to two decimals, and
`confidence` between 0 and 100. -/
theorem c6_theorem (env : ModelEnv) (s : List Char) (o : Outcome)
    (hl : ∀ f ls, env.cls_predict f = .ok ls → ∀ z ∈ ls, z = 0 ∨ z = 1)
    (hp : ∀ f rows, env.cls_proba f = .ok rows → ∀ row ∈ rows, ∀ p ∈ row, 0 ≤ p ∧ p ≤ 1)
    (hok : predict env (.pyStr s) = .ok o) :
    (o.label = 0 ∨ o.label = 1)
    ∧ (o.sentiment = "Positive" ↔ o.label = 1)
    ∧ (∃ f row rows, env.transform (preprocess_text s) = .ok f
        ∧ env.cls_proba f = .ok (row :: rows)
        ∧ row ≠ []
        ∧ o.confidence = round2 (pyMax row * 100))
    ∧ 0 ≤ o.confidence ∧ o.confidence ≤ 100 := by
  simp only [predict] at hok
  split at hok
  · exact absurd hok (by simp)
  simp only [runPrediction] at hok
  cases hf : env.transform (preprocess_text s) with
  | error e => rw [hf] at hok; exact absurd hok (by simp)
  | ok f =>
  rw [hf] at hok
  simp only at hok
  cases hpreds : env.cls_predict f with
  | error e => rw [hpreds] at hok; exact absurd hok (by simp)
  | ok preds =>
  rw [hpreds] at hok
  simp only at hok
  cases preds with
  | nil => exact absurd hok (by simp)
  | cons z preds2 =>
  simp only at hok
  cases hrows : env.cls_proba f with
  | error e => rw [hrows] at hok; exact absurd hok (by simp)
  | ok rows =>
  rw [hrows] at hok
  simp only at hok
  cases rows with
  | nil => exact absurd hok (by simp)
  | cons row rows2 =>
  simp only at hok
  cases row with
  | nil => exact absurd hok (by simp)
  | cons p ps =>
  simp only at hok
  have ho := PredictResult.ok.inj hok
  subst ho
  have hz : z = 0 ∨ z = 1 := hl f (z :: preds2) hpreds z (by simp)
  have hrow : ∀ q ∈ p :: ps, 0 ≤ q ∧ q ≤ 1 :=
    hp f ((p :: ps) :: rows2) hrows (p :: ps) (by simp)
  have hp0 := hrow p (by simp)
  have hfold : 0 ≤ ps.foldl max p ∧ ps.foldl max p ≤ 1 :=
    foldl_max_bounds hp0.1 hp0.2 (fun x hx => hrow x (by simp [hx]))
  have hconf : 0 ≤ ps.foldl max p * 100 ∧ ps.foldl max p * 100 ≤ 100 := by
    constructor <;> nlinarith [hfold.1, hfold.2]
  refine ⟨hz, ?_, ⟨f, p :: ps, rows2, rfl, hrows, by simp, by simp [pyMax]⟩,
    (round2_bounds hconf.1 hconf.2).1, (round2_bounds hconf.1 hconf.2).2⟩
  constructor
  · intro hsent
    show z = 1
    by_contra hne
    have hsent2 : (if z = 1 then "Positive" else "Negative") = "Positive" := hsent
    rw [if_neg hne] at hsent2
    exact absurd hsent2 (by decide)
  · intro hlab
    show (if z = 1 then "Positive" else "Negative") = "Positive"
    exact if_pos (hlab : z = 1) ▸ rfl

theorem c6_witness :
    predict envOne (.pyStr ("good".toList)) = .ok outcomeOne
      ∧ (outcomeOne.label = 0 ∨ outcomeOne.label = 1)
      ∧ (outcomeOne.sentiment = "Positive" ↔ outcomeOne.label = 1)
      ∧ 0 ≤ outcomeOne.confidence ∧ outcomeOne.confidence ≤ 100 := by
  have hok : predict envOne (.pyStr ("good".toList)) = .ok outcomeOne := by
    simp [predict, runPrediction, envOne, outcomeOne, pyMax]
  have hc := c6_theorem envOne ("good".toList) outcomeOne
    (by
      intro f ls h z hz
      injection h with h2
      subst h2
      simp only [List.mem_singleton] at hz
      exact Or.inr hz)
    (by
      intro f rows h row hrow p hp
      injection h with h2
      subst h2
      simp only [List.mem_singleton] at hrow
      subst hrow
      simp only [List.mem_singleton] at hp
      subst hp
      norm_num)
    hok
  exact ⟨hok, hc.1, hc.2.1, hc.2.2.2.1, hc.2.2.2.2⟩

theorem predict_sentiment_ok (env : ModelEnv) (maxLen c : ℕ) (s : List Char)
    (o : Outcome) (hsp : s.all isSpace = false) (hlen : ¬ maxLen < s.length)
    (hp : predict env (.pyStr s) = .ok o) :
    predict_sentiment (some env) maxLen c { is_json := true, review := .str s }
      = (c + 1, 1, 200, .outcome o s.length (c + 1)) := by
  simp only [predict_sentiment, Bool.not_true, Bool.false_eq_true, if_false]
  rw [if_neg (by rw [hsp]; exact Bool.false_ne_true), if_neg hlen, hp]

/-- C7.  The claim asserts the 200 response for
`{"review":"I loved this movie!"}` carries `review_length == 20`; the
string has 19 characters and the handler reports
`len(review_text) = 19`, so the claim is false as stated. -/
theorem c7_counterexample :
    movieReview.length = 19
    ∧ predict_sentiment (some envOne) 5000 0
        { is_json := true, review := .str movieReview }
        = (1, 1, 200, .outcome outcomeOne 19 1)
    ∧ (19 : ℕ) ≠ 20 := by
  refine ⟨by decide, ?_, by decide⟩
  have h := predict_sentiment_ok envOne 5000 0 movieReview outcomeOne
    (by decide) (by decide) rfl
  rw [h]
  rfl

/-- C7 (amended).  With the model loaded and the classifier succeeding
with a label in {0,1}, posting `{"review":"I loved this movie!"}` (a
19-character review) yields 200 with a sentiment present, label in
{0,1}, `review_length = 19`, and `request_id` equal to the
just-incremented counter, strictly increasing across two sequential
requests. -/
theorem c7_amended_theorem (env : ModelEnv) (c : ℕ) (f : List ℚ) (z : ℤ)
    (preds : List ℤ) (p : ℚ) (ps : List ℚ) (rows2 : List (List ℚ))
    (hT : env.transform (preprocess_text movieReview) = .ok f)
    (hP : env.cls_predict f = .ok (z :: preds))
    (hz : z = 0 ∨ z = 1)
    (hR : env.cls_proba f = .ok ((p :: ps) :: rows2)) :
    ∃ o1 o2 : Outcome,
      predict_sentiment (some env) 5000 c { is_json := true, review := .str movieReview }
        = (c + 1, 1, 200, .outcome o1 19 (c + 1))
      ∧ predict_sentiment (some env) 5000 (c + 1)
          { is_json := true, review := .str movieReview }
        = (c + 2, 1, 200, .outcome o2 19 (c + 2))
      ∧ (o1.sentiment = "Positive" ∨ o1.sentiment = "Negative")
      ∧ (o1.label = 0 ∨ o1.label = 1)
      ∧ c + 1 < c + 2 := by
  have hne : ¬(movieReview = []) := by decide
  have hpred : predict env (.pyStr movieReview) = .ok
      { sentiment := if z = 1 then "Positive" else "Negative"
        confidence := round2 (ps.foldl max p * 100)
        prediction_time_ms := round2 env.elapsed_ms
        label := z } := by
    simp only [predict, if_neg hne, runPrediction, hT, hP, hR]
  refine ⟨{ sentiment := if z = 1 then "Positive" else "Negative"
            confidence := round2 (ps.foldl max p * 100)
            prediction_time_ms := round2 env.elapsed_ms
            label := z },
          { sentiment := if z = 1 then "Positive" else "Negative"
            confidence := round2 (ps.foldl max p * 100)
            prediction_time_ms := round2 env.elapsed_ms
            label := z }, ?_, ?_, ?_, ?_, by omega⟩
  · have h := predict_sentiment_ok env 5000 c movieReview _ (by decide) (by decide) hpred
    rw [h, (by decide : movieReview.length = 19)]
  · have h := predict_sentiment_ok env 5000 (c + 1) movieReview _ (by decide) (by decide) hpred
    rw [h, (by decide : movieReview.length = 19)]
  · by_cases h1 : z = 1
    · exact Or.inl (by rw [if_pos h1])
    · exact Or.inr (by rw [if_neg h1])
  · exact hz

theorem c7_amended_witness :
    ∃ o1 o2 : Outcome,
      predict_sentiment (some envOne) 5000 0 { is_json := true, review := .str movieReview }
        = (0 + 1, 1, 200, .outcome o1 19 (0 + 1))
      ∧ predict_sentiment (some envOne) 5000 (0 + 1)
          { is_json := true, review := .str movieReview }
        = (0 + 2, 1, 200, .outcome o2 19 (0 + 2))
      ∧ (o1.sentiment = "Positive" ∨ o1.sentiment = "Negative")
      ∧ (o1.label = 0 ∨ o1.label = 1)
      ∧ 0 + 1 < 0 + 2 :=
  c7_amended_theorem envOne 0 [1] 1 [] 1 [] [] rfl rfl (Or.inr rfl) rfl

/-- C8.  The claim says the counter is incremented exactly once per
individual prediction and never by any other operation.  A non-JSON
`POST /api/predict` performs no prediction (zero calls to
`analyzer.predict`) yet still increments the counter — the increment
happens at handler entry, before any validation. -/
theorem c8_counterexample :
    (predict_sentiment (some envOne) 5000 0 { is_json := false, review := .missing }).1 = 1
    ∧ (predict_sentiment (some envOne) 5000 0 { is_json := false, review := .missing }).2.1 = 0
    ∧ (predict_sentiment (some envOne) 5000 0 { is_json := false, review := .missing }).1
        ≠ 0 + (predict_sentiment (some envOne) 5000 0 { is_json := false, review := .missing }).2.1 := by
  refine ⟨rfl, rfl, ?_⟩
  intro h
  simp [predict_sentiment] at h

theorem batchLoop_count (env : ModelEnv) :
    ∀ (items : List PyInput) (i c : ℕ),
      (batchLoop env items i c).1 = c + items.length := by
  intro items
  induction items with
  | nil => intro i c; simp [batchLoop]
  | cons item rest ih =>
    intro i c
    cases item with
    | pyOther => simp only [batchLoop, ih, List.length_cons]; omega
    | pyStr s =>
      cases hs : s.all isSpace with
      | true =>
        simp only [batchLoop, hs, if_true, ih, List.length_cons]
        omega
      | false =>
        cases hp : predict env (.pyStr s) with
        | ok o =>
          simp only [batchLoop, hs, Bool.false_eq_true, if_false, hp, ih, List.length_cons]
          omega
        | err m =>
          simp only [batchLoop, hs, Bool.false_eq_true, if_false, hp, ih, List.length_cons]
          omega

/-- C8 (amended).  The counter behaviour actually implemented: every
`POST /api/predict` request increments it exactly once, whatever the
outcome (including rejected and failed requests); an accepted batch
increments it once per item (valid or not); a rejected batch request
and the read-only endpoints (`/`, `/api/health`, `/api/stats`) leave
it unchanged; no operation ever decrements it. -/
theorem c8_amended_theorem :
    (∀ a maxLen c req, (predict_sentiment a maxLen c req).1 = c + 1)
    ∧ (∀ env c reviews, reviews.length ≠ 0 → ¬ 100 < reviews.length →
        (predict_batch (some env) c { is_json := true, reviews := .items reviews }).1
          = c + reviews.length)
    ∧ (∀ c req, (predict_batch none c req).1 = c)
    ∧ (∀ env c rvs, (predict_batch (some env) c { is_json := false, reviews := rvs }).1 = c)
    ∧ (∀ env c, (predict_batch (some env) c { is_json := true, reviews := .missing }).1 = c)
    ∧ (∀ env c, (predict_batch (some env) c { is_json := true, reviews := .notList }).1 = c)
    ∧ (∀ env c reviews, reviews.length = 0 ∨ 100 < reviews.length →
        (predict_batch (some env) c { is_json := true, reviews := .items reviews }).1 = c)
    ∧ (∀ a c, (home a c).1 = c ∧ (health_check a c).1 = c ∧ (get_stats a c).1 = c) := by
  refine ⟨?_, ?_, ?_, ?_, ?_, ?_, ?_, ?_⟩
  · intro a maxLen c req
    rcases req with ⟨j, rv⟩
    cases a with
    | none => rfl
    | some env =>
      cases j with
      | false => rfl
      | true =>
        cases rv with
        | missing => rfl
        | notStr => rfl
        | str s =>
          simp only [predict_sentiment, Bool.not_true, Bool.false_eq_true, if_false]
          split
          · rfl
          split
          · rfl
          split <;> rfl
  · intro env c reviews h0 h100
    simp only [predict_batch, Bool.not_true, Bool.false_eq_true, if_false,
      if_neg h0, if_neg h100]
    exact batchLoop_count env reviews 0 c
  · intro c req; rfl
  · intro env c rvs; rfl
  · intro env c; rfl
  · intro env c; rfl
  · intro env c reviews h
    rcases h with h | h
    · simp only [predict_batch, Bool.not_true, Bool.false_eq_true, if_false, if_pos h]
    · simp only [predict_batch, Bool.not_true, Bool.false_eq_true, if_false]
      rw [if_neg (by omega : ¬ reviews.length = 0), if_pos h]
  · intro a c
    cases a <;> exact ⟨rfl, rfl, rfl⟩

/-- C9.  A valid 3-review batch whose middle item is the empty string
(and whose other two items predict successfully) gets a 200 with three
results in input order, the middle entry tagged with index 1 and an
error, and `successful_predictions = 2`. -/
theorem c9_theorem (env : ModelEnv) (c : ℕ) (s0 s2 : List Char)
    (o0 o2 : Outcome)
    (hs0 : s0.all isSpace = false) (hs2 : s2.all isSpace = false)
    (hp0 : predict env (.pyStr s0) = .ok o0)
    (hp2 : predict env (.pyStr s2) = .ok o2) :
    predict_batch (some env) c
        { is_json := true, reviews := .items [.pyStr s0, .pyStr [], .pyStr s2] }
      = (c + 3, 2, 200,
          .ok { total_reviews := 3
                successful_predictions := 2
                results := [.ok o0 0, .err 1 invalidItemMsg, .ok o2 2] }) := by
  have hloop : batchLoop env [.pyStr s0, .pyStr [], .pyStr s2] 0 c
      = (c + 3, 2, [.ok o0 0, .err 1 invalidItemMsg, .ok o2 2]) := by
    simp only [batchLoop, hs0, hs2, hp0, hp2, if_false, Bool.false_eq_true,
      List.all_nil, if_true]
    try rfl
  simp only [predict_batch, Bool.not_true, Bool.false_eq_true, if_false,
    List.length_cons, List.length_nil]
  rw [if_neg (by omega : ¬ (0 + 1 + 1 + 1 = 0)), if_neg (by omega : ¬ (100 < 0 + 1 + 1 + 1))]
  rw [hloop]
  rfl

theorem c9_witness :
    predict_batch (some envOne) 0
        { is_json := true,
          reviews := .items [.pyStr ("good".toList), .pyStr [], .pyStr ("bad".toList)] }
      = (0 + 3, 2, 200,
          .ok { total_reviews := 3
                successful_predictions := 2
                results := [.ok outcomeOne 0, .err 1 invalidItemMsg, .ok outcomeOne 2] }) :=
  c9_theorem envOne 0 ("good".toList) ("bad".toList) outcomeOne outcomeOne
    (by decide) (by decide) rfl rfl

theorem runPrediction_err_msg (env : ModelEnv) (t : List Char) (m : String)
    (h : runPrediction env t = .err m) : ∃ e, m = failMsg e := by
  unfold runPrediction at h
  split at h
  · exact ⟨_, (PredictResult.err.inj h).symm⟩
  · split at h
    · exact ⟨_, (PredictResult.err.inj h).symm⟩
    · split at h
      · exact ⟨_, (PredictResult.err.inj h).symm⟩
      · split at h
        · exact ⟨_, (PredictResult.err.inj h).symm⟩
        · split at h
          · exact ⟨_, (PredictResult.err.inj h).symm⟩
          · split at h
            · exact ⟨_, (PredictResult.err.inj h).symm⟩
            · exact absurd h (by simp)

theorem failMsg_ne_invalid (e : String) : failMsg e ≠ invalidInputMsg := by
  intro h
  have h2 := congrArg String.data h
  rw [failMsg, invalidInputMsg, String.data_append] at h2
  simp at h2

theorem unescape_of_all_space {s : List Char}
    (h : ∀ c ∈ s, isSpace c = true) : unescape s = s := by
  induction s with
  | nil => simp [unescape]
  | cons c rest ih =>
    have hc := h c (by simp)
    have hne : ¬ (c = '&') := by
      intro he
      subst he
      exact absurd hc (by decide)
    rw [unescape, if_neg hne, ih (fun x hx => h x (by simp [hx]))]

theorem removeTags_of_all_space {s : List Char}
    (h : ∀ c ∈ s, isSpace c = true) : removeTags s = s := by
  induction s with
  | nil => simp [removeTags]
  | cons c rest ih =>
    have hc := h c (by simp)
    have hne : ¬ (c = '<') := by
      intro he
      subst he
      exact absurd hc (by decide)
    rw [removeTags, if_neg hne, ih (fun x hx => h x (by simp [hx]))]

theorem removeUrls_of_all_space {s : List Char}
    (h : ∀ c ∈ s, isSpace c = true) : removeUrls s = s := by
  induction s with
  | nil => simp [removeUrls]
  | cons c rest ih =>
    have hc := h c (by simp)
    have hne : ¬ (urlAt (c :: rest) = true) := by
      intro hu
      rw [urlAt_head hu] at hc
      exact absurd hc (by decide)
    rw [removeUrls, dif_neg hne, ih (fun x hx => h x (by simp [hx]))]

theorem toLowerChar_of_space {c : Char} (h : isSpace c = true) :
    toLowerChar c = c := by
  simp only [isSpace, Bool.or_eq_true, decide_eq_true_eq] at h
  rcases h with ((((h | h) | h) | h) | h) | h <;> subst h <;> decide

theorem splitWs_of_all_space {s : List Char}
    (h : ∀ c ∈ s, isSpace c = true) : splitWs s = [] := by
  induction s with
  | nil => simp [splitWs]
  | cons c rest ih =>
    rw [splitWs, if_pos (h c (by simp))]
    exact ih (fun x hx => h x (by simp [hx]))

theorem map_toLowerChar_id : ∀ (t : List Char), (∀ c ∈ t, toLowerChar c = c) →
    List.map toLowerChar t = t := by
  intro t
  induction t with
  | nil => intro _; rfl
  | cons c rest ih =>
    intro h
    simp only [List.map_cons, h c (by simp), ih (fun x hx => h x (by simp [hx]))]

theorem preprocess_all_space {s : List Char}
    (h : ∀ c ∈ s, isSpace c = true) : preprocess_text s = [] := by
  unfold preprocess_text
  rw [unescape_of_all_space h, removeTags_of_all_space h, removeUrls_of_all_space h]
  rw [map_toLowerChar_id s (fun c hc => toLowerChar_of_space (h c hc)),
    collapseWs, splitWs_of_all_space h]
  rfl

/-- C10.  `SentimentAnalyzer.predict` accepts whitespace-only strings:
the guard rejects only the exact empty string (and non-strings), so a
whitespace-only review reaches normalization, which yields the empty
canonical string, and the model pipeline is attempted (any error it
reports is a `'Prediction failed: ...'` message, never the
invalid-input one).  Whitespace-only reviews are rejected only by the
HTTP layer, which 400s with `Empty review` before calling the
analyzer. -/
theorem c10_theorem (env : ModelEnv) (s : List Char)
    (hne : s ≠ []) (hsp : ∀ c ∈ s, isSpace c = true) :
    preprocess_text s = []
    ∧ predict env (.pyStr s) = runPrediction env []
    ∧ (∀ m, predict env (.pyStr s) = .err m → m ≠ invalidInputMsg)
    ∧ (∀ maxLen c, predict_sentiment (some env) maxLen c { is_json := true, review := .str s }
        = (c + 1, 0, 400, .fieldErr ("Empty review") ("Review text cannot be empty"))) := by
  have hpp : preprocess_text s = [] := preprocess_all_space hsp
  have hrun : predict env (.pyStr s) = runPrediction env [] := by
    rw [predict, if_neg hne, hpp]
  refine ⟨hpp, hrun, ?_, ?_⟩
  · intro m hm
    rw [hrun] at hm
    obtain ⟨e, he⟩ := runPrediction_err_msg env [] m hm
    rw [he]
    exact failMsg_ne_invalid e
  · intro maxLen c
    have hall : s.all isSpace = true := List.all_eq_true.mpr hsp
    simp only [predict_sentiment, Bool.not_true, Bool.false_eq_true, if_false, hall, if_true]

theorem c10_witness :
    preprocess_text ([' ', ' ']) = []
    ∧ predict envOne (.pyStr [' ', ' ']) = runPrediction envOne []
    ∧ predict_sentiment (some envOne) 5000 0 { is_json := true, review := .str [' ', ' '] }
        = (0 + 1, 0, 400, .fieldErr ("Empty review") ("Review text cannot be empty")) := by
  have h := c10_theorem envOne [' ', ' '] (by decide) (by decide)
  exact ⟨h.1, h.2.1, h.2.2.2 5000 0⟩

theorem splitWs_token_nonspace :
    ∀ (s : List Char), ∀ tok ∈ splitWs s, ∀ c ∈ tok, isSpace c = false := by
  intro s
  induction s using splitWs.induct with
  | case1 => simp [splitWs]
  | case2 c rest h ih =>
    rw [splitWs, if_pos h]
    exact ih
  | case3 c rest h ih =>
    rw [splitWs, if_neg h]
    intro tok htok
    rcases List.mem_cons.mp htok with htok | htok
    · subst htok
      intro x hx
      rcases List.mem_cons.mp hx with hx | hx
      · subst hx
        exact Bool.of_not_eq_true h
      · have := List.mem_takeWhile_imp hx
        simpa using this
    · exact ih tok htok

theorem splitWs_token_ne_nil :
    ∀ (s : List Char), ∀ tok ∈ splitWs s, tok ≠ [] := by
  intro s
  induction s using splitWs.induct with
  | case1 => simp [splitWs]
  | case2 c rest h ih =>
    rw [splitWs, if_pos h]
    exact ih
  | case3 c rest h ih =>
    rw [splitWs, if_neg h]
    intro tok htok
    rcases List.mem_cons.mp htok with htok | htok
    · subst htok; simp
    · exact ih tok htok

theorem noDoubleWs_cons {a : Char} {l : List Char} (ha : isSpace a = false)
    (hl : noDoubleWs l = true) : noDoubleWs (a :: l) = true := by
  cases l with
  | nil => rfl
  | cons b m =>
    simp only [noDoubleWs, ha, Bool.false_and, Bool.not_false, Bool.true_and]
    exact hl

theorem noDoubleWs_append {t l : List Char}
    (ht : ∀ c ∈ t, isSpace c = false) (hl : noDoubleWs l = true) :
    noDoubleWs (t ++ l) = true := by
  induction t with
  | nil => exact hl
  | cons a t' ih =>
    exact noDoubleWs_cons (ht a (by simp))
      (ih (fun c hc => ht c (by simp [hc])))

theorem joinWs_head_nonspace {ts : List (List Char)}
    (hne : ∀ tok ∈ ts, tok ≠ []) (hns : ∀ tok ∈ ts, ∀ c ∈ tok, isSpace c = false) :
    ts = [] ∨ ∃ h m, joinWs ts = h :: m ∧ isSpace h = false := by
  cases ts with
  | nil => exact Or.inl rfl
  | cons t ts' =>
    refine Or.inr ?_
    cases t with
    | nil => exact absurd rfl (hne [] (by simp))
    | cons c m =>
      cases ts' with
      | nil => exact ⟨c, m, rfl, hns (c :: m) (by simp) c (by simp)⟩
      | cons t2 ts2 =>
        exact ⟨c, m ++ ' ' :: joinWs (t2 :: ts2), rfl,
          hns (c :: m) (by simp) c (by simp)⟩

theorem joinWs_noDoubleWs :
    ∀ (ts : List (List Char)), (∀ tok ∈ ts, tok ≠ []) →
      (∀ tok ∈ ts, ∀ c ∈ tok, isSpace c = false) →
      noDoubleWs (joinWs ts) = true := by
  intro ts
  induction ts with
  | nil => intro _ _; rfl
  | cons t ts' ih =>
    intro hne hns
    cases ts' with
    | nil =>
      show noDoubleWs (joinWs [t]) = true
      have : joinWs [t] = t := rfl
      rw [this, ← List.append_nil t]
      exact noDoubleWs_append (hns t (by simp)) rfl
    | cons t2 ts2 =>
      show noDoubleWs (t ++ ' ' :: joinWs (t2 :: ts2)) = true
      apply noDoubleWs_append (hns t (by simp))
      have hJ := ih (fun tok htok => hne tok (by simp [htok]))
        (fun tok htok => hns tok (by simp [htok]))
      rcases @joinWs_head_nonspace (t2 :: ts2)
          (fun tok htok => hne tok (by simp [htok]))
          (fun tok htok => hns tok (by simp [htok])) with h | ⟨h, m, hm, hh⟩
      · exact absurd h (by simp)
      · rw [hm]
        rw [hm] at hJ
        simp only [noDoubleWs, Bool.and_eq_true, Bool.not_eq_true']
        constructor
        · simp [hh]
        · exact hJ

theorem noDoubleWs_tail {a : Char} {l : List Char}
    (h : noDoubleWs (a :: l) = true) : noDoubleWs l = true := by
  cases l with
  | nil => rfl
  | cons b m =>
    simp only [noDoubleWs, Bool.and_eq_true] at h
    exact h.2

theorem noDoubleWs_no_decomp :
    ∀ (pre : List Char) (l : List Char), noDoubleWs l = true →
      ∀ a b suf, l = pre ++ a :: b :: suf → ¬(isSpace a = true ∧ isSpace b = true) := by
  intro pre
  induction pre with
  | nil =>
    intro l hl a b suf heq ⟨ha, hb⟩
    subst heq
    simp only [List.nil_append, noDoubleWs, Bool.and_eq_true, Bool.not_eq_true',
      Bool.and_eq_false_iff] at hl
    rcases hl.1 with h | h
    · rw [ha] at h; cases h
    · rw [hb] at h; cases h
  | cons x pre' ih =>
    intro l hl a b suf heq
    subst heq
    exact ih (pre' ++ a :: b :: suf) (noDoubleWs_tail hl) a b suf rfl

theorem afterGt_suffix : ∀ {l l' : List Char}, afterGt l = some l' → l' <:+ l := by
  intro l
  induction l with
  | nil => intro l' h; simp [afterGt] at h
  | cons c rest ih =>
    intro l' h
    unfold afterGt at h
    split_ifs at h with h1 h2
    · cases h
      exact (List.suffix_refl rest).trans (List.suffix_cons c rest)
    · exact (ih h).trans (List.suffix_cons c rest)

theorem removeTags_sublist : ∀ (l : List Char), List.Sublist (removeTags l) l := by
  intro l
  induction l using removeTags.induct with
  | case1 => simp [removeTags]
  | case2 rest rest' hag ih =>
    rw [removeTags, if_pos rfl, hag]
    exact ih.trans ((afterGt_suffix hag).sublist.trans (List.sublist_cons_self '<' rest))
  | case3 rest hag ih =>
    rw [removeTags, if_pos rfl, hag]
    exact ih.cons₂ '<'
  | case4 c rest h ih =>
    rw [removeTags, if_neg h]
    exact ih.cons₂ c

theorem removeUrls_sublist : ∀ (l : List Char), List.Sublist (removeUrls l) l := by
  intro l
  induction l using removeUrls.induct with
  | case1 => simp [removeUrls]
  | case2 c rest h ih =>
    rw [removeUrls, dif_pos h]
    exact ih.trans (List.dropWhile_sublist _)
  | case3 c rest h ih =>
    rw [removeUrls, dif_neg h]
    exact ih.cons₂ c

theorem afterGt_none_no_gt :
    ∀ {l : List Char}, '\n' ∉ l → afterGt l = none → '>' ∉ l := by
  intro l
  induction l with
  | nil => intro _ _; simp
  | cons c rest ih =>
    intro hnl h
    unfold afterGt at h
    split_ifs at h with h1 h2
    · subst h2
      exact absurd (List.mem_cons_self _ rest) hnl
    · intro hmem
      rcases List.mem_cons.mp hmem with hc | hc
      · exact h1 hc.symm
      · exact ih (fun hx => hnl (List.mem_cons_of_mem c hx)) h hc

theorem noLtGt_cons_of_ne {c : Char} {l : List Char} (hc : ¬(c = '<'))
    (hl : noLtGt l = true) : noLtGt (c :: l) = true := by
  simp only [noLtGt, if_neg hc, Bool.true_and]
  exact hl

theorem noLtGt_cons_iff (c : Char) (m : List Char) :
    noLtGt (c :: m) = true ↔ ((c = '<' → '>' ∉ m) ∧ noLtGt m = true) := by
  by_cases hc : c = '<'
  · subst hc
    simp [noLtGt, List.any_eq_false]
    exact fun _ => ⟨fun h hx => h '>' hx rfl, fun h x hx he => h (he ▸ hx)⟩
  · simp [noLtGt, hc]

theorem removeTags_noLtGt :
    ∀ (l : List Char), '\n' ∉ l → noLtGt (removeTags l) = true := by
  intro l
  induction l using removeTags.induct with
  | case1 => intro _; simp [removeTags, noLtGt]
  | case2 rest rest' hag ih =>
    intro hnl
    rw [removeTags, if_pos rfl, hag]
    apply ih
    intro hx
    exact hnl (List.mem_cons_of_mem _ ((afterGt_suffix hag).sublist.subset hx))
  | case3 rest hag ih =>
    intro hnl
    rw [removeTags, if_pos rfl, hag]
    have hrest : '\n' ∉ rest := fun hx => hnl (List.mem_cons_of_mem _ hx)
    have hgt : '>' ∉ rest := afterGt_none_no_gt hrest hag
    apply (noLtGt_cons_iff '<' (removeTags rest)).mpr
    refine ⟨fun _ hmem => hgt ((removeTags_sublist rest).subset hmem), ih hrest⟩
  | case4 c rest h ih =>
    intro hnl
    rw [removeTags, if_neg h]
    exact noLtGt_cons_of_ne h (ih (fun hx => hnl (List.mem_cons_of_mem c hx)))

theorem noLtGt_no_sublist :
    ∀ (l : List Char), noLtGt l = true → ¬ List.Sublist ['<', '>'] l := by
  intro l
  induction l with
  | nil => intro _ h; cases h
  | cons x m ih =>
    intro hl hsub
    have hl2 := (noLtGt_cons_iff x m).mp hl
    cases hsub with
    | @cons l1 l2 a h' => exact ih hl2.2 h'
    | @cons₂ l1 l2 a h' => exact hl2.1 rfl (List.singleton_sublist.mp h')

theorem decomp_sublist {l pre mid suf : List Char}
    (h : l = pre ++ '<' :: (mid ++ '>' :: suf)) : List.Sublist ['<', '>'] l := by
  subst h
  have h1 : List.Sublist ['>'] (mid ++ '>' :: suf) :=
    List.singleton_sublist.mpr (by simp)
  have h2 : List.Sublist ['<', '>'] ('<' :: (mid ++ '>' :: suf)) := h1.cons₂ '<'
  exact h2.trans (List.sublist_append_right pre _)

theorem toNat_ofNat_of_lt {n : ℕ} (h : n < 55296) : (Char.ofNat n).toNat = n := by
  have hv : n.isValidChar := Or.inl h
  rw [Char.ofNat, dif_pos hv]
  rfl

theorem toLowerChar_lt_fix {c : Char} (h : toLowerChar c = '<') : c = '<' := by
  unfold toLowerChar at h
  split_ifs at h with hr
  · exfalso
    have h2 := congrArg Char.toNat h
    rw [toNat_ofNat_of_lt (by omega)] at h2
    have h3 : Char.toNat ('<') = 60 := by decide
    omega
  · exact h

theorem toLowerChar_gt_fix {c : Char} (h : toLowerChar c = '>') : c = '>' := by
  unfold toLowerChar at h
  split_ifs at h with hr
  · exfalso
    have h2 := congrArg Char.toNat h
    rw [toNat_ofNat_of_lt (by omega)] at h2
    have h3 : Char.toNat ('>') = 62 := by decide
    omega
  · exact h

theorem map_pullback_ltgt :
    ∀ (l : List Char), List.Sublist ['<', '>'] (List.map toLowerChar l) →
      List.Sublist ['<', '>'] l := by
  intro l
  induction l with
  | nil => intro h; cases h
  | cons a m ih =>
    intro h
    rw [List.map_cons] at h
    generalize hfa : toLowerChar a = fa at h
    cases h with
    | @cons l1 l2 b1 h' => exact (ih h').cons a
    | @cons₂ l1 l2 b1 h' =>
      have ha : a = '<' := toLowerChar_lt_fix hfa
      have hmem2 : '>' ∈ List.map toLowerChar m := List.singleton_sublist.mp h'
      rcases List.mem_map.mp hmem2 with ⟨b, hb, hb2⟩
      have hb3 : b = '>' := toLowerChar_gt_fix hb2
      subst ha
      exact (List.singleton_sublist.mpr (hb3 ▸ hb)).cons₂ '<'

theorem filter_eq_takeWhile_append (p : Char → Bool) :
    ∀ (l : List Char), l.filter p = l.takeWhile p ++ (l.dropWhile p).filter p := by
  intro l
  induction l with
  | nil => rfl
  | cons a m ih =>
    by_cases hp : p a
    · rw [List.takeWhile_cons_of_pos hp, List.dropWhile_cons_of_pos hp,
        List.filter_cons_of_pos hp, ih]
      rfl
    · rw [List.takeWhile_cons_of_neg (by simp [hp]), List.dropWhile_cons_of_neg (by simp [hp]),
        List.filter_cons_of_neg (by simp [hp])]
      rfl

theorem filter_flatten_splitWs :
    ∀ (l : List Char), l.filter (fun c => !isSpace c) = (splitWs l).flatten := by
  intro l
  induction l using splitWs.induct with
  | case1 => simp [splitWs]
  | case2 c rest h ih =>
    rw [splitWs, if_pos h, List.filter_cons_of_neg (by simp [h])]
    exact ih
  | case3 c rest h ih =>
    rw [splitWs, if_neg h]
    rw [List.filter_cons_of_pos (by simp [Bool.of_not_eq_true h]), List.flatten_cons]
    rw [filter_eq_takeWhile_append (fun c => !isSpace c) rest, ih]
    rfl

theorem filter_joinWs :
    ∀ (ts : List (List Char)), (∀ tok ∈ ts, ∀ c ∈ tok, isSpace c = false) →
      (joinWs ts).filter (fun c => !isSpace c) = ts.flatten := by
  intro ts
  induction ts with
  | nil => intro _; rfl
  | cons t ts' ih =>
    intro hns
    have hft : t.filter (fun c => !isSpace c) = t :=
      List.filter_eq_self.mpr (fun c hc => by simp [hns t (by simp) c hc])
    cases ts' with
    | nil =>
      show (joinWs [t]).filter (fun c => !isSpace c) = t ++ [].flatten
      have hj : joinWs [t] = t := rfl
      rw [hj, hft]
      simp
    | cons t2 ts2 =>
      show (t ++ ' ' :: joinWs (t2 :: ts2)).filter (fun c => !isSpace c) = _
      rw [List.filter_append, hft, List.filter_cons_of_neg (by simp [isSpace]),
        ih (fun tok htok => hns tok (by simp [htok]))]
      rfl

theorem filter_collapseWs (u : List Char) :
    (collapseWs u).filter (fun c => !isSpace c) = u.filter (fun c => !isSpace c) := by
  rw [collapseWs, filter_joinWs (splitWs u) (splitWs_token_nonspace u),
    filter_flatten_splitWs u]

theorem collapse_pullback_ltgt {u : List Char}
    (h : List.Sublist ['<', '>'] (collapseWs u)) : List.Sublist ['<', '>'] u := by
  have h1 : List.Sublist (List.filter (fun c => !isSpace c) ['<', '>'])
      (List.filter (fun c => !isSpace c) (collapseWs u)) := h.filter _
  have h2 : List.filter (fun c => !isSpace c) ['<', '>'] = ['<', '>'] := by decide
  rw [h2, filter_collapseWs u] at h1
  exact h1.trans (List.filter_sublist _)

theorem dropWhile_head_false (p : Char → Bool) (l : List Char) :
    l.dropWhile p = [] ∨ ∃ d m, l.dropWhile p = d :: m ∧ p d = false := by
  cases hd : l.dropWhile p with
  | nil => exact Or.inl rfl
  | cons d m =>
    refine Or.inr ⟨d, m, rfl, ?_⟩
    have h2 := List.head?_dropWhile_not p l
    rw [hd] at h2
    simpa using h2

theorem dropWhile_idem (p : Char → Bool) (l : List Char) :
    (l.dropWhile p).dropWhile p = l.dropWhile p := by
  rcases dropWhile_head_false p l with hd | ⟨d, m, hd, hpd⟩
  · rw [hd]; rfl
  · rw [hd, List.dropWhile_cons_of_neg (by simp [hpd])]

theorem urlAt_false_of_space_head {d : Char} {rest : List Char}
    (hd : isSpace d = true) : urlAt (d :: rest) = false := by
  cases hu : urlAt (d :: rest) with
  | false => rfl
  | true =>
    have := urlAt_head hu
    rw [hd] at this
    cases this

theorem takeWhile_removeUrls_dropWhile_nil (l : List Char) :
    (removeUrls (l.dropWhile (fun x => !isSpace x))).takeWhile (fun x => !isSpace x)
      = [] := by
  rcases dropWhile_head_false (fun x => !isSpace x) l with hd | ⟨d, m, hd, hpd⟩
  · rw [hd]
    rw [removeUrls]
    rfl
  · rw [hd]
    have hds : isSpace d = true := by simpa using hpd
    rw [removeUrls, dif_neg (by rw [urlAt_false_of_space_head hds]; simp)]
    rw [List.takeWhile_cons_of_neg (by simp [hds])]

theorem takeWhile_removeUrls_prefix :
    ∀ (l : List Char),
      (removeUrls l).takeWhile (fun x => !isSpace x) <+: l := by
  intro l
  induction l using removeUrls.induct with
  | case1 =>
    rw [removeUrls]
    exact List.nil_prefix
  | case2 c rest h ih =>
    rw [removeUrls, dif_pos h, takeWhile_removeUrls_dropWhile_nil (c :: rest)]
    exact List.nil_prefix
  | case3 c rest h ih =>
    rw [removeUrls, dif_neg h]
    by_cases hc : isSpace c
    · rw [List.takeWhile_cons_of_neg (by simp [hc])]
      exact List.nil_prefix
    · rw [List.takeWhile_cons_of_pos (by simp [hc])]
      exact List.cons_prefix_cons.mpr ⟨rfl, ih⟩

theorem dropWhile_removeUrls_comm :
    ∀ (l : List Char),
      (removeUrls l).dropWhile (fun x => !isSpace x)
        = removeUrls (l.dropWhile (fun x => !isSpace x)) := by
  intro l
  induction l using removeUrls.induct with
  | case1 =>
    simp [removeUrls]
  | case2 c rest h ih =>
    rw [removeUrls, dif_pos h, ih, dropWhile_idem]
  | case3 c rest h ih =>
    by_cases hc : isSpace c
    · rw [removeUrls, dif_neg h, List.dropWhile_cons_of_neg (by simp [hc]),
        List.dropWhile_cons_of_neg (by simp [hc]), removeUrls, dif_neg h]
    · rw [removeUrls, dif_neg h, List.dropWhile_cons_of_pos (by simp [hc]),
        List.dropWhile_cons_of_pos (by simp [hc]), ih]

theorem removeUrls_tokens_aux :
    ∀ (n : ℕ) (l : List Char), l.length ≤ n →
      ∀ tok ∈ splitWs (removeUrls l),
        (['h', 't', 't', 'p'].isPrefixOf tok = true → tok = ['h', 't', 't', 'p'])
        ∧ (['w', 'w', 'w'].isPrefixOf tok = true → tok = ['w', 'w', 'w']) := by
  intro n
  induction n with
  | zero =>
    intro l hl
    have hnil : l = [] := List.length_eq_zero.mp (Nat.le_zero.mp hl)
    subst hnil
    simp [removeUrls, splitWs]
  | succ n ih =>
    intro l hl
    cases l with
    | nil => simp [removeUrls, splitWs]
    | cons c rest =>
      by_cases hu : urlAt (c :: rest) = true
      · rw [removeUrls, dif_pos hu]
        apply ih
        rw [List.dropWhile_cons_of_pos (by simp [urlAt_head hu])]
        have h2 : (rest.dropWhile (fun x => !isSpace x)).length ≤ rest.length :=
          (List.dropWhile_sublist _).length_le
        simp only [List.length_cons] at hl
        omega
      · rw [removeUrls, dif_neg hu]
        by_cases hc : isSpace c
        · rw [splitWs, if_pos hc]
          apply ih
          simp only [List.length_cons] at hl
          omega
        · rw [splitWs, if_neg hc]
          intro tok htok
          have hpfx : (c :: (removeUrls rest).takeWhile (fun x => !isSpace x)) <+: (c :: rest) := by
            have h2 := takeWhile_removeUrls_prefix (c :: rest)
            rw [removeUrls, dif_neg hu,
              List.takeWhile_cons_of_pos (by simp [Bool.of_not_eq_true hc])] at h2
            exact h2
          rcases List.mem_cons.mp htok with htok | htok
          · subst htok
            constructor
            · intro hpre
              by_contra hneq
              obtain ⟨u, hu2⟩ := List.isPrefixOf_iff_prefix.mp hpre
              cases u with
              | nil => exact hneq (by rw [← hu2]; rfl)
              | cons d u2 =>
                apply hu
                simp only [List.cons_append, List.nil_append, List.cons.injEq] at hu2
                obtain ⟨hc1, hu3⟩ := hu2
                obtain ⟨v, hv⟩ := hpfx
                have hd : isSpace d = false := by
                  have hdm : d ∈ (removeUrls rest).takeWhile (fun x => !isSpace x) := by
                    rw [← hu3]
                    simp
                  simpa using List.mem_takeWhile_imp hdm
                have hcr : c :: rest = ['h', 't', 't', 'p'] ++ (d :: u2 ++ v) := by
                  rw [← hv, ← hc1, ← hu3]
                  rfl
                unfold urlAt
                apply Bool.or_eq_true_iff.mpr
                refine Or.inl (Bool.and_eq_true_iff.mpr ⟨?_, ?_⟩)
                · exact List.isPrefixOf_iff_prefix.mpr ⟨d :: u2 ++ v, hcr.symm⟩
                · rw [hcr, List.drop_left' (by rfl)]
                  simp [hd]
            · intro hpre
              by_contra hneq
              obtain ⟨u, hu2⟩ := List.isPrefixOf_iff_prefix.mp hpre
              cases u with
              | nil => exact hneq (by rw [← hu2]; rfl)
              | cons d u2 =>
                apply hu
                simp only [List.cons_append, List.nil_append, List.cons.injEq] at hu2
                obtain ⟨hc1, hu3⟩ := hu2
                obtain ⟨v, hv⟩ := hpfx
                have hd : isSpace d = false := by
                  have hdm : d ∈ (removeUrls rest).takeWhile (fun x => !isSpace x) := by
                    rw [← hu3]
                    simp
                  simpa using List.mem_takeWhile_imp hdm
                have hcr : c :: rest = ['w', 'w', 'w'] ++ (d :: u2 ++ v) := by
                  rw [← hv, ← hc1, ← hu3]
                  rfl
                unfold urlAt
                apply Bool.or_eq_true_iff.mpr
                refine Or.inr (Bool.and_eq_true_iff.mpr ⟨?_, ?_⟩)
                · exact List.isPrefixOf_iff_prefix.mpr ⟨d :: u2 ++ v, hcr.symm⟩
                · rw [hcr, List.drop_left' (by rfl)]
                  simp [hd]
          · rw [dropWhile_removeUrls_comm rest] at htok
            apply ih (rest.dropWhile (fun x => !isSpace x)) _ tok htok
            have h2 : (rest.dropWhile (fun x => !isSpace x)).length ≤ rest.length :=
              (List.dropWhile_sublist _).length_le
            simp only [List.length_cons] at hl
            omega

theorem takeWhile_dropWhile_of_all {p : Char → Bool} :
    ∀ {m : List Char}, (∀ c ∈ m, p c = true) →
      m.takeWhile p = m ∧ m.dropWhile p = [] := by
  intro m
  induction m with
  | nil => intro _; exact ⟨rfl, rfl⟩
  | cons a m' ih =>
    intro h
    have hp := h a (by simp)
    have ih2 := ih (fun c hc => h c (by simp [hc]))
    rw [List.takeWhile_cons_of_pos hp, List.dropWhile_cons_of_pos hp, ih2.1, ih2.2]
    exact ⟨rfl, rfl⟩

theorem splitWs_joinWs :
    ∀ (ts : List (List Char)), (∀ tok ∈ ts, tok ≠ []) →
      (∀ tok ∈ ts, ∀ c ∈ tok, isSpace c = false) →
      splitWs (joinWs ts) = ts := by
  intro ts
  induction ts with
  | nil => intro _ _; simp [splitWs, joinWs]
  | cons t ts' ih =>
    intro hne hns
    have hallp : ∀ c ∈ t, (fun x => !isSpace x) c = true := by
      intro c hc
      simp [hns t (by simp) c hc]
    cases ts' with
    | nil =>
      show splitWs (joinWs [t]) = [t]
      have hj : joinWs [t] = t := rfl
      rw [hj]
      cases t with
      | nil => exact absurd rfl (hne [] (by simp))
      | cons c0 m =>
        rw [splitWs, if_neg (by simp [hns (c0 :: m) (by simp) c0 (by simp)])]
        have hm := takeWhile_dropWhile_of_all
          (fun x hx => hallp x (List.mem_cons_of_mem c0 hx))
        rw [hm.1, hm.2]
        simp [splitWs]
    | cons t2 ts2 =>
      show splitWs (t ++ ' ' :: joinWs (t2 :: ts2)) = t :: t2 :: ts2
      cases t with
      | nil => exact absurd rfl (hne [] (by simp))
      | cons c0 m =>
        rw [List.cons_append]
        rw [splitWs, if_neg (by simp [hns (c0 :: m) (by simp) c0 (by simp)])]
        have hallm : ∀ x ∈ m, (fun x => !isSpace x) x = true := by
          intro x hx
          exact hallp x (List.mem_cons_of_mem c0 hx)
        rw [List.takeWhile_append_of_pos hallm, List.dropWhile_append_of_pos hallm]
        rw [List.takeWhile_cons_of_neg (by simp [isSpace]),
          List.dropWhile_cons_of_neg (by simp [isSpace])]
        rw [splitWs, if_pos (by simp [isSpace])]
        rw [ih (fun tok htok => hne tok (by simp [htok]))
          (fun tok htok => hns tok (by simp [htok]))]
        simp

/-- C2.  The claim (no `<`…`>` substrings, no tokens starting with
`http`/`www`, no whitespace runs, for *every* input) is false: on
`"<\n> http"` the tag regex cannot cross the newline and the URL
regex needs a character after `http`, so the output `"< > http"`
contains both a `<`…`>` substring and a token starting with `http`. -/
theorem c2_counterexample :
    ¬((∀ pre a b suf, preprocess_text ("<\n> http".toList) = pre ++ a :: b :: suf →
          ¬(isSpace a = true ∧ isSpace b = true))
      ∧ (∀ pre mid suf,
          preprocess_text ("<\n> http".toList) ≠ pre ++ '<' :: (mid ++ '>' :: suf))
      ∧ (∀ tok ∈ splitWs (preprocess_text ("<\n> http".toList)),
          ¬(startsWithHttpWww tok = true))) := by
  intro hcl
  apply hcl.2.1 [] [' '] [' ', 'h', 't', 't', 'p']
  show preprocess_text ("<\n> http".toList) = ['<', ' ', '>', ' ', 'h', 't', 't', 'p']
  simp [preprocess_text, collapseWs, unescape, findEntity, findNumeric, findNamed, semiLen, decodeNumeric, invalidCodepoint, foldDigits, digitVal, hexVal, hexDigit, cp1252, Char.isDigit, removeTags, afterGt,
    removeUrls, urlAt, splitWs, joinWs, toLowerChar, isSpace]

/-- C2 (amended).  For every input the normalized output has no run of
two or more consecutive whitespace characters; for every input whose
entity-decoded text (the result of `html.unescape` on it) contains no
newline, the output contains no `<`…`>` substring; and for every input
whose entity-decoded text contains no uppercase ASCII letter, any
output token beginning with `http` or `www` is exactly the bare word
`http` or `www` (the regex `http\S+|www\S+` requires a following
non-whitespace character and is applied before lowercasing).  The
last two conditions are on the decoded text, not the raw input,
because entity decoding itself can introduce newlines (`&#10;`,
`&NewLine;`) and uppercase letters (`&#72;`). -/
theorem c2_amended_theorem (s : List Char) :
    (∀ pre a b suf, preprocess_text s = pre ++ a :: b :: suf →
        ¬(isSpace a = true ∧ isSpace b = true))
    ∧ ('\n' ∉ unescape s →
        ∀ pre mid suf, preprocess_text s ≠ pre ++ '<' :: (mid ++ '>' :: suf))
    ∧ ((∀ c ∈ unescape s, toLowerChar c = c) →
        ∀ tok ∈ splitWs (preprocess_text s),
          (['h', 't', 't', 'p'].isPrefixOf tok = true → tok = ['h', 't', 't', 'p'])
          ∧ (['w', 'w', 'w'].isPrefixOf tok = true → tok = ['w', 'w', 'w'])) := by
  refine ⟨?_, ?_, ?_⟩
  · intro pre a b suf heq
    have hndw : noDoubleWs (preprocess_text s) = true :=
      joinWs_noDoubleWs
        (splitWs (List.map toLowerChar (removeUrls (removeTags (unescape s)))))
        (splitWs_token_ne_nil _) (splitWs_token_nonspace _)
    exact noDoubleWs_no_decomp pre (preprocess_text s) hndw a b suf heq
  · intro hnl pre mid suf heq
    have hsub := decomp_sublist heq
    have h1 := collapse_pullback_ltgt hsub
    have h2 := map_pullback_ltgt _ h1
    have h3 := h2.trans (removeUrls_sublist _)
    exact noLtGt_no_sublist _ (removeTags_noLtGt (unescape s) hnl) h3
  · intro hlow tok htok
    have hfix : ∀ c ∈ removeUrls (removeTags (unescape s)), toLowerChar c = c :=
      fun c hc =>
        hlow c ((removeTags_sublist _).subset ((removeUrls_sublist _).subset hc))
    have hmap := map_toLowerChar_id _ hfix
    have hsp : splitWs (preprocess_text s)
        = splitWs (removeUrls (removeTags (unescape s))) := by
      show splitWs (collapseWs (List.map toLowerChar (removeUrls (removeTags (unescape s))))) = _
      rw [hmap, collapseWs,
        splitWs_joinWs (splitWs (removeUrls (removeTags (unescape s))))
          (splitWs_token_ne_nil _) (splitWs_token_nonspace _)]
    rw [hsp] at htok
    exact removeUrls_tokens_aux (removeTags (unescape s)).length
      (removeTags (unescape s)) le_rfl tok htok

theorem c2_amended_witness :
    ('\n' ∉ unescape c2SampleText)
    ∧ (∀ c ∈ unescape c2SampleText, toLowerChar c = c)
    ∧ (∀ pre mid suf,
        preprocess_text c2SampleText ≠ pre ++ '<' :: (mid ++ '>' :: suf))
    ∧ (∀ tok ∈ splitWs (preprocess_text c2SampleText),
        (['h', 't', 't', 'p'].isPrefixOf tok = true → tok = ['h', 't', 't', 'p'])
        ∧ (['w', 'w', 'w'].isPrefixOf tok = true → tok = ['w', 'w', 'w'])) := by
  have he : unescape c2SampleText
      = ("see <b>this</b> at http://x.y or www.z & maybe http now".toList) := by
    simp [c2SampleText, unescape, findEntity, findNumeric, findNamed, semiLen, decodeNumeric, invalidCodepoint, foldDigits, digitVal, hexVal, hexDigit, cp1252, Char.isDigit]
  have h1 : '\n' ∉ unescape c2SampleText := by rw [he]; decide
  have h2 : ∀ c ∈ unescape c2SampleText, toLowerChar c = c := by rw [he]; decide
  exact ⟨h1, h2, (c2_amended_theorem c2SampleText).2.1 h1,
    (c2_amended_theorem c2SampleText).2.2 h2⟩
